import Mathlib

/-!
Verification development for the olekukonko/errors Go library.

This file gives a shallow embedding, in Lean 4, of the parts of the library
that the specification talks about: the enhanced error value with its
two-tier context store (errors.go), the object pool (pool.go), the sharded
per-name counter and the threshold/alert dispatch of the registry
(registry.go), the retry engine with its backoff strategies (retry.go),
the error aggregate (multi_error.go), and the package-level Code helper
(helpers.go).  Go machine integers that can overflow (time.Duration is a
64-bit signed integer) are modelled as Int with an explicit wrapping
function; uint64 occurrence counters, whose overflow is unreachable in any
claim considered here, are modelled as Nat.  Pointers into the pool are
modelled as numeric shell identifiers.  Side-effect-only features
(the on-read callback, the onRetry hook, timing) do not influence any value
computed here and are omitted from the record types.
-/

namespace ErrorsLib

/-- CtxVal models the dynamic values (interface values in Go) stored in an
error's key/value context. -/
inductive CtxVal where
  | nat (n : Nat)
  | str (s : String)
  | boolean (b : Bool)
deriving DecidableEq

/-- CtxMap models a Go map from string keys to context values, as an
association list with unique keys; insertion replaces in place. -/
abbrev CtxMap := List (String × CtxVal)

/-- mapInsert models a Go map assignment m[k] = v: it replaces the value of
an existing key and otherwise appends the new pair. -/
def mapInsert (m : CtxMap) (k : String) (v : CtxVal) : CtxMap :=
  if m.any (fun p => p.1 = k) then
    m.map (fun p => if p.1 = k then (k, v) else p)
  else
    m ++ [(k, v)]

/-- mapLookup models a Go map read m[k]: the value of the unique entry
with key k, if any. -/
def mapLookup (m : CtxMap) (k : String) : Option CtxVal :=
  match m with
  | [] => none
  | p :: t => if p.1 = k then some p.2 else mapLookup t k

/-- listToMap models copying the inline context entries into a map in
order, as Error.Context and the spill branch of Error.With both do. -/
def listToMap (l : CtxMap) : CtxMap :=
  l.foldl (fun m p => mapInsert m p.1 p.2) []

/-- oOr is Option choice biased to the left, used to state which of two
lookup sources wins a key conflict. -/
def oOr {α : Type} (a b : Option α) : Option α :=
  match a with
  | some v => some v
  | none => b

/-- regLookup models a read from one of the registry's string-keyed maps
(an association list with unique keys here). -/
def regLookup {α : Type} (m : List (String × α)) (name : String) : Option α :=
  match m with
  | [] => none
  | p :: t => if p.1 = name then some p.2 else regLookup t name

/-- regStore models a write to one of the registry's string-keyed maps:
it replaces the value of an existing key and otherwise appends. -/
def regStore {α : Type} (m : List (String × α)) (name : String) (v : α) :
    List (String × α) :=
  if m.any (fun p => p.1 = name) then
    m.map (fun p => if p.1 = name then (name, v) else p)
  else
    m ++ [(name, v)]

/-- contextSize is the capacity of the inline context array (errors.go). -/
def contextSize : Nat := 4

/-- Error models the Error struct of errors.go.  The Go pair
(smallContext : [4]contextItem, smallCount : int32) is modelled by the list
small of the populated slots in order (array slots at index at least
smallCount are never read by any method, so they are not represented).
The overflow map is context, where none models a nil Go map and some []
models an allocated but empty map - the distinction matters because the
code branches on context == nil.  The stack is the list of program
counters, with none for a nil slice and some [] for an empty non-nil
slice.  The cause field holds an opaque reference to the wrapped error
(the methods treated here only move it around).  The callback field is
omitted: it is invoked for effect only. -/
structure Error where
  msg : String
  name : String
  template : String
  category : String
  count : Nat
  code : Int
  small : CtxMap
  context : Option CtxMap
  cause : Option Nat
  stack : Option (List Nat)
deriving DecidableEq

/-- emptyError models a freshly allocated shell: every field zero/nil. -/
def emptyError : Error :=
  { msg := "", name := "", template := "", category := "", count := 0,
    code := 0, small := [], context := none, cause := none, stack := none }

/-- Error.New models New(text) on a fresh shell: only msg is set, no stack
is captured (errors.go). -/
def Error.New (text : String) : Error :=
  { emptyError with msg := text }

/-- Error.With models the With method of errors.go: while the inline array
is not full the pair is appended inline; when the inline array holds
exactly contextSize entries and no map exists, the map is allocated, the
inline entries are copied into it, smallCount is set to 3 (the literal in
the source), and the new pair goes to the map; otherwise the pair goes to
the (possibly just-allocated) map. -/
def Error.With (e : Error) (k : String) (v : CtxVal) : Error :=
  if e.small.length < contextSize then
    { e with small := e.small ++ [(k, v)] }
  else if e.small.length = contextSize ∧ e.context = none then
    { e with context := some (mapInsert (listToMap e.small) k v),
             small := e.small.take 3 }
  else
    match e.context with
    | none => { e with context := some (mapInsert [] k v) }
    | some m => { e with context := some (mapInsert m k v) }

/-- Error.Context models the Context method: when inline entries exist and
no map does, the map is materialized from the inline entries (and stored
back into the error); otherwise the existing map (possibly nil) is
returned as is. -/
def Error.Context (e : Error) : Option CtxMap × Error :=
  if e.small.length ≠ 0 ∧ e.context = none then
    let m := listToMap e.small
    (some m, { e with context := some m })
  else
    (e.context, e)

/-- ctxView is the read-only part of Error.Context. -/
def ctxView (e : Error) : Option CtxMap :=
  (Error.Context e).1

/-- ctxViewLookup reads one key through the Context() view. -/
def ctxViewLookup (e : Error) (k : String) : Option CtxVal :=
  match ctxView e with
  | none => none
  | some m => mapLookup m k

/-- Error.HasContextKey models HasContextKey: the inline entries are probed
first, then the map if it exists. -/
def Error.HasContextKey (e : Error) (k : String) : Bool :=
  if e.small.any (fun p => p.1 = k) then true
  else
    match e.context with
    | some m => m.any (fun p => p.1 = k)
    | none => false

/-- Error.Reset models Reset: every scalar field is cleared, the overflow
map keeps its allocation but loses its keys (a non-nil map stays non-nil
and becomes empty), smallCount drops to zero, and a non-nil stack is
truncated to length zero but stays non-nil. -/
def Error.Reset (e : Error) : Error :=
  { e with msg := "", name := "", template := "", category := "",
           code := 0, count := 0, cause := none,
           context := e.context.map (fun _ => []),
           small := [],
           stack := e.stack.map (fun _ => []) }

/-- Error.Code models the Code method: the stored code (0 when unset). -/
def Error.Code (e : Error) : Int := e.code

/-- GoErr models a value of Go interface type error: either a library
*Error or a foreign error carrying only its message. -/
inductive GoErr where
  | lib (e : Error)
  | foreign (msg : String)

/-- Code models the package-level helper Code(err) of helpers.go: the
stored code for a library error, 500 for any other error type. -/
def Code (err : GoErr) : Int :=
  match err with
  | GoErr.lib e => Error.Code e
  | GoErr.foreign _ => 500

/-- poolPut models ErrorPool.Put of pool.go at the level of pool contents:
unless pooling is disabled, the shell (identified by its pointer, a
numeric id here) is appended to the pool.  Put also Resets the shell; the
caller models that on the shell record. -/
def poolPut (disablePooling : Bool) (pool : List Nat) (eid : Nat) : List Nat :=
  if disablePooling then pool else pool ++ [eid]

/-- Error.Free models the Free method of errors.go: when pooling is
enabled the shell is Reset, its stack buffer is handed back to the stack
pool (the stack field becomes nil), and the shell is put into the error
pool.  The shell is the Error record paired with its pointer identity
eid; the function returns the updated shell and pool.  The source
consults no flag recording whether the shell is already pooled. -/
def Error.Free (disablePooling : Bool) (e : Error) (eid : Nat)
    (pool : List Nat) : Error × List Nat :=
  if disablePooling then (e, pool)
  else
    let r := Error.Reset e
    let r := { r with stack := none }
    (r, poolPut disablePooling pool eid)

/-- ShardState is the per-name shard array of registry.go: eight padded
uint64 cells, modelled as a function from shard index to count. -/
abbrev ShardState := Fin 8 → Nat

/-- shardedCounter models the shardedCounter of registry.go: a map from
error names to their shard arrays. -/
structure shardedCounter where
  counts : List (String × ShardState)

/-- scLookup reads the shard array stored for a name, if any. -/
def scLookup (c : shardedCounter) (name : String) : Option ShardState :=
  regLookup c.counts name

/-- scStore writes the shard array for a name, replacing any previous
binding. -/
def scStore (c : shardedCounter) (name : String) (s : ShardState) :
    shardedCounter :=
  ⟨regStore c.counts name s⟩

/-- zeroShards is the freshly allocated shard array (all cells zero). -/
def zeroShards : ShardState := fun _ => 0

/-- shardedCounter.empty is the initial counter with no names. -/
def shardedCounter.empty : shardedCounter := ⟨[]⟩

/-- getShards models the LoadOrStore read half: the existing shard array,
or a fresh zero array when the name is absent. -/
def getShards (c : shardedCounter) (name : String) : ShardState :=
  (scLookup c name).getD zeroShards

/-- shardedCounter.Inc models Inc of registry.go.  The shard index in the
source is an address-derived hash (uintptr of a local pointer variable
modulo 8); the embedding takes it as the explicit argument shard.  The
chosen shard cell is incremented and its new value - not a sum over the
shards - is returned together with the updated counter. -/
def shardedCounter.Inc (c : shardedCounter) (name : String) (shard : Fin 8) :
    Nat × shardedCounter :=
  let shards := getShards c name
  let nv := shards shard + 1
  (nv, scStore c name (Function.update shards shard nv))

/-- shardedCounter.Value models Value: the sum over all eight shards of
the name's array, 0 when the name is unregistered. -/
def shardedCounter.Value (c : shardedCounter) (name : String) : Nat :=
  match scLookup c name with
  | some shards => (List.ofFn shards).sum
  | none => 0

/-- shardedCounter.RegisterName models RegisterName: LoadOrStore of a
zero shard array. -/
def shardedCounter.RegisterName (c : shardedCounter) (name : String) :
    shardedCounter :=
  match scLookup c name with
  | some _ => c
  | none => scStore c name zeroShards

/-- incSeq runs a sequence of Inc calls for one name, with the given
shard choice for each call, and collects the returned values in order. -/
def incSeq (c : shardedCounter) (name : String) :
    List (Fin 8) → List Nat × shardedCounter
  | [] => ([], c)
  | i :: t =>
    let r := shardedCounter.Inc c name i
    let rest := incSeq r.2 name t
    (r.1 :: rest.1, rest.2)

/-- wrap64 reduces an integer to the 64-bit two's-complement value that a
Go int64 computation produces. -/
def wrap64 (z : Int) : Int :=
  (z + 9223372036854775808) % 18446744073709551616 - 9223372036854775808

/-- goShl1 models the Go expression 1 << s on a 64-bit int: two to the s,
wrapped to int64 (shifts of 63 give the minimal int64; shifts of 64 or
more give 0). -/
def goShl1 (s : Nat) : Int := wrap64 (2 ^ s)

/-- ConstantBackoff.Backoff models retry.go: the base delay regardless of
the attempt number. -/
def ConstantBackoff.Backoff (_attempt : Int) (baseDelay : Int) : Int :=
  baseDelay

/-- LinearBackoff.Backoff models retry.go: baseDelay * attempt, computed
in int64 arithmetic. -/
def LinearBackoff.Backoff (attempt : Int) (baseDelay : Int) : Int :=
  wrap64 (baseDelay * attempt)

/-- ExponentialBackoff.Backoff models retry.go: the base delay for
attempts up to 1, otherwise baseDelay * (1 << (attempt-1)) in int64
arithmetic. -/
def ExponentialBackoff.Backoff (attempt : Int) (baseDelay : Int) : Int :=
  if attempt ≤ 1 then baseDelay
  else wrap64 (baseDelay * goShl1 (attempt - 1).toNat)

/-- Retry models the Retry configuration fields that decide control flow:
the attempt bound, the retry predicate (never nil after NewRetry), and
the error value that the cancellation context returns from Err().  Delay
computation and the onRetry hook do not affect which value Execute
returns and are not recorded. -/
structure Retry (ε : Type) where
  maxAttempts : Nat
  retryIf : ε → Bool
  ctxErr : ε

/-- execLoop is the attempt loop of Retry.Execute, structured on the fuel
of remaining loop iterations (fuel = maxAttempts - attempt + 1, so the
current attempt is the last one exactly when fuel is 1).  fn gives the
outcome of the k-th invocation (none = success); canceled says whether
the cancellation context fires during the suspension after attempt k.
The result pairs the returned error (none = nil) with the number of
invocations of fn performed. -/
def execLoop {ε : Type} (r : Retry ε) (fn : Nat → Option ε)
    (canceled : Nat → Bool) : Nat → Nat → Option ε → Option ε × Nat
  | 0, _, lastErr => (lastErr, 0)
  | fuel + 1, attempt, _ =>
    match fn attempt with
    | none => (none, 1)
    | some e =>
      if r.retryIf e = false then (some e, 1)
      else if fuel = 0 then (some e, 1)
      else if canceled attempt then (some r.ctxErr, 1)
      else
        let p := execLoop r fn canceled fuel (attempt + 1) (some e)
        (p.1, p.2 + 1)

/-- Retry.Execute models Execute of retry.go: the attempt loop starting
at attempt 1 with lastErr nil. -/
def Retry.Execute {ε : Type} (r : Retry ε) (fn : Nat → Option ε)
    (canceled : Nat → Bool) : Option ε × Nat :=
  execLoop r fn canceled r.maxAttempts 1 none

/-- execReplyLoop is the attempt loop of ExecuteReply; identical control
flow to execLoop, but each invocation yields either a success value of
type τ or an error, and the result carries the returned value (none for
the zero value of τ) alongside the returned error. -/
def execReplyLoop {ε τ : Type} (r : Retry ε) (fn : Nat → τ ⊕ ε)
    (canceled : Nat → Bool) : Nat → Nat → Option ε → (Option τ × Option ε) × Nat
  | 0, _, lastErr => ((none, lastErr), 0)
  | fuel + 1, attempt, _ =>
    match fn attempt with
    | Sum.inl t => ((some t, none), 1)
    | Sum.inr e =>
      if r.retryIf e = false then ((none, some e), 1)
      else if fuel = 0 then ((none, some e), 1)
      else if canceled attempt then ((none, some r.ctxErr), 1)
      else
        let p := execReplyLoop r fn canceled fuel (attempt + 1) (some e)
        (p.1, p.2 + 1)

/-- ExecuteReply models ExecuteReply of retry.go. -/
def ExecuteReply {ε τ : Type} (r : Retry ε) (fn : Nat → τ ⊕ ε)
    (canceled : Nat → Bool) : (Option τ × Option ε) × Nat :=
  execReplyLoop r fn canceled r.maxAttempts 1 none

/-- MultiError models the MultiError of multi_error.go; errors of the
collection are opaque values of type ε here. -/
structure MultiError (ε : Type) where
  errors : List ε
  limit : Nat
  sampling : Bool
  sampleRate : Nat

/-- NewMultiError models NewMultiError with the WithLimit and
WithSampling options pre-applied. -/
def NewMultiError (ε : Type) (limit : Nat) (sampling : Bool)
    (sampleRate : Nat) : MultiError ε :=
  { errors := [], limit := limit, sampling := sampling,
    sampleRate := sampleRate }

/-- MultiError.Add models Add: nil errors are ignored; with sampling on
and a non-empty collection, the error is dropped when the random draw
modulo 100 reaches the sample rate; with a positive limit and a full
collection, the error is dropped; otherwise it is appended.  rand stands
for the fastRand() draw of that call. -/
def MultiError.Add {ε : Type} (m : MultiError ε) (err : Option ε)
    (rand : Nat) : MultiError ε :=
  match err with
  | none => m
  | some e =>
    if m.sampling ∧ m.errors.length > 0 ∧ rand % 100 ≥ m.sampleRate then m
    else if m.limit > 0 ∧ m.errors.length ≥ m.limit then m
    else { m with errors := m.errors ++ [e] }

/-- MultiError.Count models Count: the length of the collection. -/
def MultiError.Count {ε : Type} (m : MultiError ε) : Nat :=
  m.errors.length

/-- addAll folds Add over a list of (error, random draw) pairs. -/
def addAll {ε : Type} (m : MultiError ε) :
    List (Option ε × Nat) → MultiError ε
  | [] => m
  | p :: t => addAll (MultiError.Add m p.1 p.2) t

/-! Lemmas about the association-list view of Go maps. -/

lemma mapLookup_nil (k : String) : mapLookup [] k = none := rfl

lemma mapLookup_append (a b : CtxMap) (k : String) :
    mapLookup (a ++ b) k = oOr (mapLookup a k) (mapLookup b k) := by
  induction a with
  | nil => rfl
  | cons hd tl ih =>
    by_cases h : hd.1 = k
    · simp [mapLookup, h, oOr]
    · simp [mapLookup, h, ih]

lemma mapLookup_not_mem (m : CtxMap) (k : String)
    (h : m.any (fun p => p.1 = k) = false) : mapLookup m k = none := by
  induction m with
  | nil => rfl
  | cons hd tl ih =>
    simp only [List.any_cons, Bool.or_eq_false_iff] at h
    have h1 : ¬ hd.1 = k := by simpa using h.1
    simp [mapLookup, h1, ih h.2]

lemma mapLookup_replace_ne (m : CtxMap) (k : String) (v : CtxVal)
    (k' : String) (h : k' ≠ k) :
    mapLookup (m.map (fun p => if p.1 = k then (k, v) else p)) k'
      = mapLookup m k' := by
  induction m with
  | nil => rfl
  | cons hd tl ih =>
    by_cases h1 : hd.1 = k
    · have h2 : ¬ (k = k') := fun hc => h hc.symm
      have h3 : ¬ (hd.1 = k') := by rw [h1]; exact h2
      simp [mapLookup, h1, h2, h3, ih]
    · by_cases h3 : hd.1 = k'
      · simp [mapLookup, h1, h3, h]
      · simp [mapLookup, h1, h3, ih]

lemma mapLookup_replace_self (m : CtxMap) (k : String) (v : CtxVal)
    (h : m.any (fun p => p.1 = k) = true) :
    mapLookup (m.map (fun p => if p.1 = k then (k, v) else p)) k
      = some v := by
  induction m with
  | nil => exact absurd h (by simp)
  | cons hd tl ih =>
    by_cases h1 : hd.1 = k
    · simp [mapLookup, h1]
    · have h2 : tl.any (fun p => p.1 = k) = true := by
        simp only [List.any_cons, Bool.or_eq_true] at h
        rcases h with h | h
        · exact absurd (by simpa using h) h1
        · exact h
      simp [mapLookup, h1, ih h2]

lemma mapLookup_mapInsert_self (m : CtxMap) (k : String) (v : CtxVal) :
    mapLookup (mapInsert m k v) k = some v := by
  unfold mapInsert
  by_cases hany : m.any (fun p => p.1 = k)
  · rw [if_pos hany]
    exact mapLookup_replace_self m k v hany
  · rw [if_neg hany]
    rw [mapLookup_append]
    rw [mapLookup_not_mem m k (Bool.eq_false_iff.mpr hany)]
    simp [mapLookup, oOr]

lemma mapLookup_mapInsert_ne (m : CtxMap) (k : String) (v : CtxVal)
    (k' : String) (h : k' ≠ k) :
    mapLookup (mapInsert m k v) k' = mapLookup m k' := by
  unfold mapInsert
  by_cases hany : m.any (fun p => p.1 = k)
  · rw [if_pos hany]
    exact mapLookup_replace_ne m k v k' h
  · rw [if_neg hany]
    rw [mapLookup_append]
    have hk : ¬ (k = k') := fun hc => h hc.symm
    have : mapLookup [(k, v)] k' = none := by simp [mapLookup, hk]
    rw [this]
    cases hm : mapLookup m k' <;> simp [oOr]

lemma mapLookup_mapInsert (m : CtxMap) (k : String) (v : CtxVal)
    (k' : String) :
    mapLookup (mapInsert m k v) k'
      = if k' = k then some v else mapLookup m k' := by
  by_cases h : k' = k
  · rw [if_pos h, h, mapLookup_mapInsert_self]
  · rw [if_neg h, mapLookup_mapInsert_ne m k v k' h]

/-- ctxSixWrites is the error produced by six consecutive With calls with
distinct keys on a fresh error, the failing input of claim C2. -/
def ctxSixWrites : Error :=
  Error.With (Error.With (Error.With (Error.With (Error.With (Error.With
    (Error.New "test") "a" (CtxVal.nat 1)) "b" (CtxVal.nat 2))
    "c" (CtxVal.nat 3)) "d" (CtxVal.nat 4)) "e" (CtxVal.nat 5))
    "f" (CtxVal.nat 6)

/-- ctxFiveWrites is the same run stopped after the fifth write. -/
def ctxFiveWrites : Error :=
  Error.With (Error.With (Error.With (Error.With (Error.With
    (Error.New "test") "a" (CtxVal.nat 1)) "b" (CtxVal.nat 2))
    "c" (CtxVal.nat 3)) "d" (CtxVal.nat 4)) "e" (CtxVal.nat 5)

/-- C2: the claim states the two-tier write discipline: four inline
writes, a fifth write that spills to the overflow map, map-only writes
afterwards, and reads that reflect every written key.  The code violates
it: the spill branch of With sets smallCount to 3, so the sixth write
lands in inline slot 3 and the Context() view (which returns the overflow
map unchanged once it exists) lacks key "f", while HasContextKey still
sees it.  The repository's own test TestContextStorage
("preserves all context items") expects all six keys in the Context()
map, so this is a bug in the code, exhibited here by evaluation.  The
first conjuncts confirm the parts of the claim that do hold (the first
four writes fill the inline array in order and the fifth allocates the
map and copies the inline entries in order). -/
theorem C2_sixth_write_lost :
    ctxFiveWrites.context
      = some [("a", CtxVal.nat 1), ("b", CtxVal.nat 2), ("c", CtxVal.nat 3),
              ("d", CtxVal.nat 4), ("e", CtxVal.nat 5)]
    ∧ ctxFiveWrites.small
      = [("a", CtxVal.nat 1), ("b", CtxVal.nat 2), ("c", CtxVal.nat 3)]
    ∧ ctxSixWrites.small
      = [("a", CtxVal.nat 1), ("b", CtxVal.nat 2), ("c", CtxVal.nat 3),
         ("f", CtxVal.nat 6)]
    ∧ ctxSixWrites.context
      = some [("a", CtxVal.nat 1), ("b", CtxVal.nat 2), ("c", CtxVal.nat 3),
              ("d", CtxVal.nat 4), ("e", CtxVal.nat 5)]
    ∧ ctxViewLookup ctxSixWrites "f" = none
    ∧ Error.HasContextKey ctxSixWrites "f" = true := by
  decide

/-- C9: the claim states that the pooled flag makes the second Free a
no-op, so a shell never enters the pool twice.  The Free of errors.go and
the Put of pool.go consult no such flag (the Error struct there has no
pooled field): evaluating a double Free of the shell with identity 7 on
an empty pool puts the shell into the pool twice, after which two Gets
can hand the same shell to two callers.  The claim describes the
spec-intended guard; the code lacks it. -/
theorem C9_double_free_double_put :
    (Error.Free false
      (Error.Free false (Error.New "x") 7 []).1 7
      (Error.Free false (Error.New "x") 7 []).2).2 = [7, 7]
    ∧ (Error.Free false
        (Error.Free false (Error.New "x") 7 []).1 7
        (Error.Free false (Error.New "x") 7 []).2).2 ≠ [7] := by
  decide

/-- C10: the package-level Code helper returns the stored code of a
library error (0 when never set, as on a fresh shell) and 500 for every
foreign error value. -/
theorem C10_code_helper :
    (∀ e : Error, Code (GoErr.lib e) = e.code)
    ∧ (∀ s : String, Code (GoErr.foreign s) = 500)
    ∧ emptyError.code = 0
    ∧ (Error.New "boom").code = 0 := by
  exact ⟨fun _ => rfl, fun _ => rfl, rfl, rfl⟩

/-! Lemmas about the registry's string-keyed maps. -/

lemma regLookup_append {α : Type} (a b : List (String × α)) (k : String) :
    regLookup (a ++ b) k = oOr (regLookup a k) (regLookup b k) := by
  induction a with
  | nil => rfl
  | cons hd tl ih =>
    by_cases h : hd.1 = k
    · simp [regLookup, h, oOr]
    · simp [regLookup, h, ih]

lemma regLookup_not_mem {α : Type} (m : List (String × α)) (k : String)
    (h : m.any (fun p => p.1 = k) = false) : regLookup m k = none := by
  induction m with
  | nil => rfl
  | cons hd tl ih =>
    simp only [List.any_cons, Bool.or_eq_false_iff] at h
    have h1 : ¬ hd.1 = k := by simpa using h.1
    simp [regLookup, h1, ih h.2]

lemma regLookup_replace_self {α : Type} (m : List (String × α)) (k : String)
    (v : α) (h : m.any (fun p => p.1 = k) = true) :
    regLookup (m.map (fun p => if p.1 = k then (k, v) else p)) k
      = some v := by
  induction m with
  | nil => exact absurd h (by simp)
  | cons hd tl ih =>
    by_cases h1 : hd.1 = k
    · simp [regLookup, h1]
    · have h2 : tl.any (fun p => p.1 = k) = true := by
        simp only [List.any_cons, Bool.or_eq_true] at h
        rcases h with h | h
        · exact absurd (by simpa using h) h1
        · exact h
      simp [regLookup, h1, ih h2]

lemma regLookup_replace_ne {α : Type} (m : List (String × α)) (k : String)
    (v : α) (k' : String) (h : k' ≠ k) :
    regLookup (m.map (fun p => if p.1 = k then (k, v) else p)) k'
      = regLookup m k' := by
  induction m with
  | nil => rfl
  | cons hd tl ih =>
    by_cases h1 : hd.1 = k
    · have h2 : ¬ (k = k') := fun hc => h hc.symm
      have h3 : ¬ (hd.1 = k') := by rw [h1]; exact h2
      simp [regLookup, h1, h2, h3, ih]
    · by_cases h3 : hd.1 = k'
      · simp [regLookup, h1, h3, h]
      · simp [regLookup, h1, h3, ih]

lemma regLookup_regStore_self {α : Type} (m : List (String × α))
    (k : String) (v : α) : regLookup (regStore m k v) k = some v := by
  unfold regStore
  by_cases hany : m.any (fun p => p.1 = k)
  · rw [if_pos hany]
    exact regLookup_replace_self m k v hany
  · rw [if_neg hany]
    rw [regLookup_append]
    rw [regLookup_not_mem m k (Bool.eq_false_iff.mpr hany)]
    simp [regLookup, oOr]

lemma regLookup_regStore_ne {α : Type} (m : List (String × α))
    (k : String) (v : α) (k' : String) (h : k' ≠ k) :
    regLookup (regStore m k v) k' = regLookup m k' := by
  unfold regStore
  by_cases hany : m.any (fun p => p.1 = k)
  · rw [if_pos hany]
    exact regLookup_replace_ne m k v k' h
  · rw [if_neg hany]
    rw [regLookup_append]
    have hk : ¬ (k = k') := fun hc => h hc.symm
    have h1 : regLookup [(k, v)] k' = none := by simp [regLookup, hk]
    rw [h1]
    cases hm : regLookup m k' <;> simp [oOr]

/-! Lemmas about the sharded counter. -/

lemma scLookup_Inc (c : shardedCounter) (name : String) (i : Fin 8) :
    scLookup (shardedCounter.Inc c name i).2 name
      = some (Function.update (getShards c name) i (getShards c name i + 1)) := by
  show regLookup (regStore c.counts name _) name = _
  rw [regLookup_regStore_self]

lemma sum_ofFn_update_succ (f : ShardState) (i : Fin 8) :
    (List.ofFn (Function.update f i (f i + 1))).sum = (List.ofFn f).sum + 1 := by
  rw [List.sum_ofFn, List.sum_ofFn]
  have h1 : ∀ j : Fin 8, Function.update f i (f i + 1) j
      = f j + (if j = i then 1 else 0) := by
    intro j
    by_cases h : j = i
    · subst h; simp
    · rw [Function.update_noteq h]
      simp [h]
  rw [Finset.sum_congr rfl (fun j _ => h1 j)]
  rw [Finset.sum_add_distrib]
  rw [Finset.sum_ite_eq' Finset.univ i (fun _ => 1)]
  simp

lemma Value_Inc (c : shardedCounter) (name : String) (i : Fin 8) :
    shardedCounter.Value (shardedCounter.Inc c name i).2 name
      = shardedCounter.Value c name + 1 := by
  unfold shardedCounter.Value
  rw [scLookup_Inc]
  show (List.ofFn (Function.update (getShards c name) i _)).sum = _
  rw [sum_ofFn_update_succ]
  cases h : scLookup c name with
  | some f =>
    unfold getShards
    rw [h]
    rfl
  | none =>
    unfold getShards
    rw [h]
    show (List.ofFn zeroShards).sum + 1 = 0 + 1
    decide

lemma Inc_fst (c : shardedCounter) (name : String) (i : Fin 8) :
    (shardedCounter.Inc c name i).1 = getShards c name i + 1 := rfl

lemma getShards_Inc (c : shardedCounter) (name : String) (i : Fin 8) :
    getShards (shardedCounter.Inc c name i).2 name
      = Function.update (getShards c name) i (getShards c name i + 1) := by
  unfold getShards
  rw [scLookup_Inc]
  rfl

lemma incSeq_value (name : String) (l : List (Fin 8)) :
    ∀ c : shardedCounter,
      shardedCounter.Value (incSeq c name l).2 name
        = shardedCounter.Value c name + l.length := by
  induction l with
  | nil => intro c; simp [incSeq]
  | cons i t ih =>
    intro c
    show shardedCounter.Value (incSeq (shardedCounter.Inc c name i).2 name t).2 name = _
    rw [ih, Value_Inc]
    simp only [List.length_cons]
    omega

lemma incSeq_const_returns (name : String) (i : Fin 8) :
    ∀ (n : Nat) (c : shardedCounter),
      (incSeq c name (List.replicate n i)).1
        = (List.range n).map (fun j => getShards c name i + j + 1) := by
  intro n
  induction n with
  | zero => intro c; rfl
  | succ m ih =>
    intro c
    show (shardedCounter.Inc c name i).1
        :: (incSeq (shardedCounter.Inc c name i).2 name (List.replicate m i)).1 = _
    rw [Inc_fst, ih, getShards_Inc]
    rw [List.range_succ_eq_map]
    simp only [List.map_cons, List.map_map, Function.update_same]
    refine congrArg₂ List.cons (by omega) ?_
    have hfun : ((fun j => getShards c name i + j + 1) ∘ Nat.succ)
        = (fun j => getShards c name i + 1 + j + 1) := by
      funext j
      simp only [Function.comp_apply]
      omega
    rw [hfun]

/-- C7 counterexample: the claim quantifies over every attempt index
k ≥ 1, but the delay is computed in 64-bit signed arithmetic; at k = 64
with baseDelay = 1 the Go shift 1 << 63 produces the minimal int64, so
ExponentialBackoff.Backoff returns -2^63 instead of the claimed
1 * 2^63, and the delay at k = 64 is smaller than the delay at k = 63,
refuting monotonicity as well. -/
theorem C7_counterexample :
    ExponentialBackoff.Backoff 64 1 = -9223372036854775808
    ∧ ExponentialBackoff.Backoff 64 1 ≠ 1 * 2 ^ (64 - 1 : Nat)
    ∧ ExponentialBackoff.Backoff 64 1 < ExponentialBackoff.Backoff 63 1 := by
  refine ⟨by decide, by decide, by decide⟩

lemma wrap64_eq_self (z : Int) (h0 : -9223372036854775808 ≤ z)
    (h1 : z < 9223372036854775808) : wrap64 z = z := by
  unfold wrap64
  omega

lemma wrap64_zero : wrap64 0 = 0 := by
  unfold wrap64
  decide

lemma goShl1_eq_pow (s : Nat) (hs : s ≤ 62) : goShl1 s = 2 ^ s := by
  unfold goShl1
  apply wrap64_eq_self
  · have : (0:Int) ≤ 2 ^ s := pow_nonneg (by norm_num) s
    linarith
  · have h1 : (2:Int) ^ s ≤ 2 ^ 62 := pow_le_pow_right (by norm_num) hs
    have h2 : (2:Int) ^ 62 = 4611686018427387904 := by norm_num
    linarith

/-- C7 amended: the Backoff formulas of the claim hold in the absence of
64-bit overflow.  Constant always returns the base delay (hence equal
delays at successive attempts); Linear returns baseDelay * k and is
monotone whenever baseDelay * (k+1) still fits below 2^63; Exponential
returns baseDelay for k = 1 and baseDelay * 2^(k-1) otherwise, and is
monotone, whenever baseDelay * 2^k fits below 2^63.  The counterexample
theorem shows the unconditional claim fails at k = 64. -/
theorem C7_backoff_formulas (base : Int) (k : Nat) (hb : 0 ≤ base)
    (hk : 1 ≤ k) :
    ConstantBackoff.Backoff (k : Int) base = base
    ∧ ConstantBackoff.Backoff ((k : Int) + 1) base
        = ConstantBackoff.Backoff (k : Int) base
    ∧ (base * ((k : Int) + 1) < 2 ^ 63 →
        LinearBackoff.Backoff (k : Int) base = base * (k : Int)
        ∧ LinearBackoff.Backoff (k : Int) base
            ≤ LinearBackoff.Backoff ((k : Int) + 1) base)
    ∧ (base * 2 ^ k < 2 ^ 63 →
        ExponentialBackoff.Backoff (k : Int) base = base * 2 ^ (k - 1)
        ∧ ExponentialBackoff.Backoff (k : Int) base
            ≤ ExponentialBackoff.Backoff ((k : Int) + 1) base) := by
  have hpow63 : (2:Int) ^ 63 = 9223372036854775808 := by norm_num
  have hknn : (0:Int) ≤ (k : Int) := by positivity
  refine ⟨rfl, rfl, ?_, ?_⟩
  · intro hlin
    rw [hpow63] at hlin
    have hmono : base * (k : Int) ≤ base * ((k : Int) + 1) :=
      mul_le_mul_of_nonneg_left (by linarith) hb
    have h0 : (0:Int) ≤ base * (k : Int) := mul_nonneg hb hknn
    have heq1 : LinearBackoff.Backoff (k : Int) base = base * (k : Int) := by
      unfold LinearBackoff.Backoff
      exact wrap64_eq_self _ (by linarith) (by linarith)
    have heq2 : LinearBackoff.Backoff ((k : Int) + 1) base
        = base * ((k : Int) + 1) := by
      unfold LinearBackoff.Backoff
      exact wrap64_eq_self _ (by linarith) (by linarith)
    exact ⟨heq1, by rw [heq1, heq2]; exact hmono⟩
  · intro hexp
    rw [hpow63] at hexp
    have hp2 : (0:Int) ≤ 2 ^ (k - 1) := pow_nonneg (by norm_num) _
    have hp3 : (0:Int) ≤ 2 ^ k := pow_nonneg (by norm_num) _
    have hstep : (2:Int) ^ (k - 1) ≤ 2 ^ k :=
      pow_le_pow_right (by norm_num) (by omega)
    by_cases hbz : base = 0
    · subst hbz
      have hz : ∀ a : Int, wrap64 (0 * a) = 0 := by
        intro a
        rw [zero_mul, wrap64_zero]
      constructor
      · unfold ExponentialBackoff.Backoff
        by_cases h1 : (k : Int) ≤ 1
        · rw [if_pos h1, zero_mul]
        · rw [if_neg h1, hz, zero_mul]
      · unfold ExponentialBackoff.Backoff
        by_cases h1 : (k : Int) ≤ 1
        · rw [if_pos h1]
          by_cases h2 : (k : Int) + 1 ≤ 1
          · rw [if_pos h2]
          · rw [if_neg h2, hz]
        · rw [if_neg h1, hz]
          by_cases h2 : (k : Int) + 1 ≤ 1
          · rw [if_pos h2]
          · rw [if_neg h2, hz]
    · have hb1 : (1:Int) ≤ base := by omega
      have h2k : (2:Int) ^ k < 9223372036854775808 := by
        calc (2:Int) ^ k = 1 * 2 ^ k := (one_mul _).symm
          _ ≤ base * 2 ^ k := mul_le_mul_of_nonneg_right hb1 hp3
          _ < 9223372036854775808 := hexp
      have hklt : k < 63 := by
        by_contra hge
        push_neg at hge
        have : (2:Int) ^ 63 ≤ 2 ^ k := pow_le_pow_right (by norm_num) hge
        rw [hpow63] at this
        linarith
      have hprod1 : base * 2 ^ (k - 1) ≤ base * 2 ^ k :=
        mul_le_mul_of_nonneg_left hstep hb
      have hnn1 : (0:Int) ≤ base * 2 ^ (k - 1) := mul_nonneg hb hp2
      have hnn2 : (0:Int) ≤ base * 2 ^ k := mul_nonneg hb hp3
      have hg1 : goShl1 (k - 1) = 2 ^ (k - 1) := goShl1_eq_pow _ (by omega)
      have hgk : goShl1 k = 2 ^ k := goShl1_eq_pow _ (by omega)
      have hsucc : ExponentialBackoff.Backoff ((k : Int) + 1) base
          = base * 2 ^ k := by
        unfold ExponentialBackoff.Backoff
        rw [if_neg (by omega)]
        have ht : ((k : Int) + 1 - 1).toNat = k := by omega
        rw [ht, hgk]
        exact wrap64_eq_self _ (by linarith) (by linarith)
      by_cases h1 : k = 1
      · subst h1
        constructor
        · unfold ExponentialBackoff.Backoff
          rw [if_pos (by norm_num)]
          norm_num
        · rw [hsucc]
          unfold ExponentialBackoff.Backoff
          rw [if_pos (by norm_num)]
          have : (2:Int) ^ (1:Nat) = 2 := by norm_num
          nlinarith
      · have hk2 : 2 ≤ k := by omega
        have hkeq : ExponentialBackoff.Backoff (k : Int) base
            = base * 2 ^ (k - 1) := by
          unfold ExponentialBackoff.Backoff
          rw [if_neg (by omega)]
          have ht : ((k : Int) - 1).toNat = k - 1 := by omega
          rw [ht, hg1]
          exact wrap64_eq_self _ (by linarith) (by linarith)
        refine ⟨hkeq, ?_⟩
        rw [hkeq, hsucc]
        exact hprod1

/-- Witness for C7_backoff_formulas at base delay 1 and attempt 2. -/
theorem C7_backoff_formulas_witness :
    ExponentialBackoff.Backoff ((2 : Nat) : Int) 1 = 1 * 2 ^ (2 - 1 : Nat)
    ∧ LinearBackoff.Backoff ((2 : Nat) : Int) 1 = 1 * ((2 : Nat) : Int) := by
  have h := C7_backoff_formulas 1 2 (by norm_num) (by norm_num)
  exact ⟨(h.2.2.2 (by norm_num)).1, (h.2.2.1 (by norm_num)).1⟩

/-- C1 counterexample: Inc does not return a total obtained by re-summing
the shards; it returns the new value of the single shard it incremented
(registry.go line 46 and errmgr.go line 77 both return the result of the
atomic add on one cell).  With two Inc calls for the same name whose
address-derived hashes select different shards (indices 0 and 4 here, the
two values a pointer-aligned address can produce modulo 8 on a 32-bit
platform), the second call returns 1 while the re-summed total is 2, so
the returned values are neither totals nor strictly increasing. -/
theorem C1_counterexample :
    (shardedCounter.Inc
        (shardedCounter.Inc shardedCounter.empty "x" 0).2 "x" 4).1 = 1
    ∧ shardedCounter.Value
        (shardedCounter.Inc
          (shardedCounter.Inc shardedCounter.empty "x" 0).2 "x" 4).2 "x" = 2
    ∧ (shardedCounter.Inc
        (shardedCounter.Inc shardedCounter.empty "x" 0).2 "x" 4).1
      ≠ shardedCounter.Value
        (shardedCounter.Inc
          (shardedCounter.Inc shardedCounter.empty "x" 0).2 "x" 4).2 "x" := by
  refine ⟨by decide, by decide, by decide⟩

/-- C1 amended: each Inc call increments exactly one shard - the one
selected by the address-derived hash, taken as an explicit argument here -
and returns that shard's new value rather than a re-summed total.  The
total Value(name) after n Inc calls from the empty counter equals n
regardless of shard selection.  When every call for a name lands on the
same shard - as the 8-byte alignment of the hashed address forces on
64-bit platforms, where the index is always 0 - the n successive Inc
calls return 1, 2, ..., n: unique, strictly increasing, and equal to the
running total. -/
theorem C1_inc_characterization :
    (∀ (c : shardedCounter) (name : String) (i : Fin 8),
        shardedCounter.Inc c name i
          = (getShards c name i + 1,
             scStore c name
               (Function.update (getShards c name) i (getShards c name i + 1))))
    ∧ (∀ (c : shardedCounter) (name : String) (i : Fin 8),
        shardedCounter.Value (shardedCounter.Inc c name i).2 name
          = shardedCounter.Value c name + 1)
    ∧ (∀ (name : String) (l : List (Fin 8)),
        shardedCounter.Value (incSeq shardedCounter.empty name l).2 name
          = l.length)
    ∧ (∀ (name : String) (i : Fin 8) (n : Nat),
        (incSeq shardedCounter.empty name (List.replicate n i)).1
          = (List.range n).map (fun j => j + 1)) := by
  refine ⟨fun c name i => rfl, Value_Inc, ?_, ?_⟩
  · intro name l
    rw [incSeq_value]
    have h0 : shardedCounter.Value shardedCounter.empty name = 0 := rfl
    rw [h0]
    omega
  · intro name i n
    rw [incSeq_const_returns]
    have h0 : getShards shardedCounter.empty name i = 0 := rfl
    simp [h0]

/-! Lemmas about the retry loop. -/

lemma execLoop_step {ε : Type} (r : Retry ε) (fn : Nat → Option ε)
    (canceled : Nat → Bool) (f attempt : Nat) (last : Option ε) (e : ε)
    (hfe : fn attempt = some e) (hre : r.retryIf e = true) (hf0 : f ≠ 0)
    (hcf : canceled attempt = false) :
    execLoop r fn canceled (f + 1) attempt last
      = ((execLoop r fn canceled f (attempt + 1) (some e)).1,
         (execLoop r fn canceled f (attempt + 1) (some e)).2 + 1) := by
  simp only [execLoop]
  rw [hfe]
  dsimp only
  rw [if_neg (show ¬ (r.retryIf e = false) by simp [hre])]
  rw [if_neg hf0]
  rw [if_neg (show ¬ (canceled attempt = true) by simp [hcf])]

lemma execLoop_count_le {ε : Type} (r : Retry ε) (fn : Nat → Option ε)
    (canceled : Nat → Bool) :
    ∀ (fuel attempt : Nat) (last : Option ε),
      (execLoop r fn canceled fuel attempt last).2 ≤ fuel := by
  intro fuel
  induction fuel with
  | zero => intro attempt last; simp [execLoop]
  | succ f ih =>
    intro attempt last
    simp only [execLoop]
    cases hfn : fn attempt with
    | none => simp
    | some e =>
      dsimp only
      by_cases h1 : r.retryIf e = false
      · simp [h1]
      · rw [if_neg h1]
        by_cases h2 : f = 0
        · simp [h2]
        · rw [if_neg h2]
          by_cases h3 : canceled attempt = true
          · simp [h3]
          · rw [if_neg h3]
            dsimp only
            have := ih (attempt + 1) (some e)
            omega

lemma execLoop_success {ε : Type} (r : Retry ε) (fn : Nat → Option ε)
    (canceled : Nat → Bool) :
    ∀ (fuel attempt : Nat) (last : Option ε) (k : Nat),
      attempt ≤ k → k < attempt + fuel →
      (∀ j, attempt ≤ j → j < k →
        (∃ e, fn j = some e ∧ r.retryIf e = true) ∧ canceled j = false) →
      fn k = none →
      execLoop r fn canceled fuel attempt last = (none, k + 1 - attempt) := by
  intro fuel
  induction fuel with
  | zero =>
    intro attempt last k h1 h2 _ _
    omega
  | succ f ih =>
    intro attempt last k h1 h2 hpre hk
    by_cases hak : attempt = k
    · subst hak
      simp only [execLoop]
      rw [hk]
      dsimp only
      simp only [Prod.mk.injEq]
      exact ⟨by trivial, by omega⟩
    · have hlt : attempt < k := lt_of_le_of_ne h1 hak
      obtain ⟨⟨e, hfe, hre⟩, hcf⟩ := hpre attempt le_rfl hlt
      have hf0 : f ≠ 0 := by omega
      rw [execLoop_step r fn canceled f attempt last e hfe hre hf0 hcf]
      rw [ih (attempt + 1) (some e) k (by omega) (by omega)
            (fun j hj1 hj2 => hpre j (by omega) hj2) hk]
      simp only [Prod.mk.injEq]
      exact ⟨by trivial, by omega⟩

lemma execLoop_reject {ε : Type} (r : Retry ε) (fn : Nat → Option ε)
    (canceled : Nat → Bool) :
    ∀ (fuel attempt : Nat) (last : Option ε) (k : Nat) (e : ε),
      attempt ≤ k → k < attempt + fuel →
      (∀ j, attempt ≤ j → j < k →
        (∃ e2, fn j = some e2 ∧ r.retryIf e2 = true) ∧ canceled j = false) →
      fn k = some e → r.retryIf e = false →
      execLoop r fn canceled fuel attempt last = (some e, k + 1 - attempt) := by
  intro fuel
  induction fuel with
  | zero =>
    intro attempt last k e h1 h2 _ _ _
    omega
  | succ f ih =>
    intro attempt last k e h1 h2 hpre hk hre
    by_cases hak : attempt = k
    · subst hak
      simp only [execLoop]
      rw [hk]
      dsimp only
      rw [if_pos hre]
      simp only [Prod.mk.injEq]
      exact ⟨by trivial, by omega⟩
    · have hlt : attempt < k := lt_of_le_of_ne h1 hak
      obtain ⟨⟨e2, hfe, hre2⟩, hcf⟩ := hpre attempt le_rfl hlt
      have hf0 : f ≠ 0 := by omega
      rw [execLoop_step r fn canceled f attempt last e2 hfe hre2 hf0 hcf]
      rw [ih (attempt + 1) (some e2) k e (by omega) (by omega)
            (fun j hj1 hj2 => hpre j (by omega) hj2) hk hre]
      simp only [Prod.mk.injEq]
      exact ⟨by trivial, by omega⟩

lemma execLoop_exhaust {ε : Type} (r : Retry ε) (fn : Nat → Option ε)
    (canceled : Nat → Bool) :
    ∀ (fuel attempt : Nat) (last : Option ε) (eN : ε),
      1 ≤ fuel →
      (∀ j, attempt ≤ j → j + 1 < attempt + fuel →
        (∃ e, fn j = some e ∧ r.retryIf e = true) ∧ canceled j = false) →
      fn (attempt + fuel - 1) = some eN →
      execLoop r fn canceled fuel attempt last = (some eN, fuel) := by
  intro fuel
  induction fuel with
  | zero =>
    intro attempt last eN h1 _ _
    omega
  | succ f ih =>
    intro attempt last eN _ hpre hk
    by_cases hf : f = 0
    · subst hf
      have hk2 : fn attempt = some eN := by
        have h3 : attempt + 1 - 1 = attempt := by omega
        rw [← h3]
        exact hk
      simp only [execLoop]
      rw [hk2]
      dsimp only
      by_cases hre : r.retryIf eN = false
      · rw [if_pos hre]
      · rw [if_neg hre]
        rw [if_pos trivial]
    · obtain ⟨⟨e, hfe, hre⟩, hcf⟩ := hpre attempt le_rfl (by omega)
      rw [execLoop_step r fn canceled f attempt last e hfe hre hf hcf]
      have hk2 : fn (attempt + 1 + f - 1) = some eN := by
        have h3 : attempt + 1 + f - 1 = attempt + (f + 1) - 1 := by omega
        rw [h3]
        exact hk
      rw [ih (attempt + 1) (some e) eN (by omega)
            (fun j hj1 hj2 => hpre j (by omega) (by omega)) hk2]

lemma execLoop_cancel {ε : Type} (r : Retry ε) (fn : Nat → Option ε)
    (canceled : Nat → Bool) :
    ∀ (fuel attempt : Nat) (last : Option ε) (k : Nat),
      attempt ≤ k → k + 1 < attempt + fuel →
      (∀ j, attempt ≤ j → j < k →
        (∃ e, fn j = some e ∧ r.retryIf e = true) ∧ canceled j = false) →
      (∃ e, fn k = some e ∧ r.retryIf e = true) → canceled k = true →
      execLoop r fn canceled fuel attempt last
        = (some r.ctxErr, k + 1 - attempt) := by
  intro fuel
  induction fuel with
  | zero =>
    intro attempt last k h1 h2 _ _ _
    omega
  | succ f ih =>
    intro attempt last k h1 h2 hpre hke hck
    by_cases hak : attempt = k
    · subst hak
      obtain ⟨e, hfe, hre⟩ := hke
      have hf0 : f ≠ 0 := by omega
      simp only [execLoop]
      rw [hfe]
      dsimp only
      rw [if_neg (show ¬ (r.retryIf e = false) by simp [hre])]
      rw [if_neg hf0]
      rw [if_pos hck]
      simp only [Prod.mk.injEq]
      exact ⟨by trivial, by omega⟩
    · have hlt : attempt < k := lt_of_le_of_ne h1 hak
      obtain ⟨⟨e, hfe, hre⟩, hcf⟩ := hpre attempt le_rfl hlt
      have hf0 : f ≠ 0 := by omega
      rw [execLoop_step r fn canceled f attempt last e hfe hre hf0 hcf]
      rw [ih (attempt + 1) (some e) k (by omega) (by omega)
            (fun j hj1 hj2 => hpre j (by omega) hj2) hke hck]
      simp only [Prod.mk.injEq]
      exact ⟨by trivial, by omega⟩

lemma execReplyLoop_step {ε τ : Type} (r : Retry ε) (fn : Nat → τ ⊕ ε)
    (canceled : Nat → Bool) (f attempt : Nat) (last : Option ε) (e : ε)
    (hfe : fn attempt = Sum.inr e) (hre : r.retryIf e = true) (hf0 : f ≠ 0)
    (hcf : canceled attempt = false) :
    execReplyLoop r fn canceled (f + 1) attempt last
      = ((execReplyLoop r fn canceled f (attempt + 1) (some e)).1,
         (execReplyLoop r fn canceled f (attempt + 1) (some e)).2 + 1) := by
  simp only [execReplyLoop]
  rw [hfe]
  dsimp only
  rw [if_neg (show ¬ (r.retryIf e = false) by simp [hre])]
  rw [if_neg hf0]
  rw [if_neg (show ¬ (canceled attempt = true) by simp [hcf])]

lemma execReplyLoop_cancel {ε τ : Type} (r : Retry ε) (fn : Nat → τ ⊕ ε)
    (canceled : Nat → Bool) :
    ∀ (fuel attempt : Nat) (last : Option ε) (k : Nat),
      attempt ≤ k → k + 1 < attempt + fuel →
      (∀ j, attempt ≤ j → j < k →
        (∃ e, fn j = Sum.inr e ∧ r.retryIf e = true) ∧ canceled j = false) →
      (∃ e, fn k = Sum.inr e ∧ r.retryIf e = true) → canceled k = true →
      execReplyLoop r fn canceled fuel attempt last
        = ((none, some r.ctxErr), k + 1 - attempt) := by
  intro fuel
  induction fuel with
  | zero =>
    intro attempt last k h1 h2 _ _ _
    omega
  | succ f ih =>
    intro attempt last k h1 h2 hpre hke hck
    by_cases hak : attempt = k
    · subst hak
      obtain ⟨e, hfe, hre⟩ := hke
      have hf0 : f ≠ 0 := by omega
      simp only [execReplyLoop]
      rw [hfe]
      dsimp only
      rw [if_neg (show ¬ (r.retryIf e = false) by simp [hre])]
      rw [if_neg hf0]
      rw [if_pos hck]
      simp only [Prod.mk.injEq]
      exact ⟨by trivial, by omega⟩
    · have hlt : attempt < k := lt_of_le_of_ne h1 hak
      obtain ⟨⟨e, hfe, hre⟩, hcf⟩ := hpre attempt le_rfl hlt
      have hf0 : f ≠ 0 := by omega
      rw [execReplyLoop_step r fn canceled f attempt last e hfe hre hf0 hcf]
      rw [ih (attempt + 1) (some e) k (by omega) (by omega)
            (fun j hj1 hj2 => hpre j (by omega) hj2) hke hck]
      simp only [Prod.mk.injEq]
      exact ⟨by trivial, by omega⟩

/-- C4: Execute invokes the function at most maxAttempts times; returns
nil with exactly k invocations when attempt k succeeds after retryable
non-cancelled failures; returns the failing error itself with exactly k
invocations - no further invocations, no suspension - when the predicate
rejects the k-th error; and returns the error of the maxAttempts-th
failed invocation after maxAttempts invocations when every attempt fails,
the first maxAttempts - 1 retryably and without cancellation. -/
theorem C4_execute_behavior :
    (∀ (ε : Type) (r : Retry ε) (fn : Nat → Option ε) (canceled : Nat → Bool),
        (Retry.Execute r fn canceled).2 ≤ r.maxAttempts)
    ∧ (∀ (ε : Type) (r : Retry ε) (fn : Nat → Option ε) (canceled : Nat → Bool)
        (k : Nat), 1 ≤ k → k ≤ r.maxAttempts →
        (∀ j, 1 ≤ j → j < k →
          (∃ e, fn j = some e ∧ r.retryIf e = true) ∧ canceled j = false) →
        fn k = none →
        Retry.Execute r fn canceled = (none, k))
    ∧ (∀ (ε : Type) (r : Retry ε) (fn : Nat → Option ε) (canceled : Nat → Bool)
        (k : Nat) (e : ε), 1 ≤ k → k ≤ r.maxAttempts →
        (∀ j, 1 ≤ j → j < k →
          (∃ e2, fn j = some e2 ∧ r.retryIf e2 = true) ∧ canceled j = false) →
        fn k = some e → r.retryIf e = false →
        Retry.Execute r fn canceled = (some e, k))
    ∧ (∀ (ε : Type) (r : Retry ε) (fn : Nat → Option ε) (canceled : Nat → Bool)
        (eN : ε), 1 ≤ r.maxAttempts →
        (∀ j, 1 ≤ j → j < r.maxAttempts →
          (∃ e, fn j = some e ∧ r.retryIf e = true) ∧ canceled j = false) →
        fn r.maxAttempts = some eN →
        Retry.Execute r fn canceled = (some eN, r.maxAttempts)) := by
  refine ⟨?_, ?_, ?_, ?_⟩
  · intro ε r fn canceled
    exact execLoop_count_le r fn canceled r.maxAttempts 1 none
  · intro ε r fn canceled k h1 h2 hpre hk
    have := execLoop_success r fn canceled r.maxAttempts 1 none k h1
      (by omega) (fun j hj1 hj2 => hpre j hj1 hj2) hk
    rw [Retry.Execute, this]
    simp only [Prod.mk.injEq]
    exact ⟨by trivial, by omega⟩
  · intro ε r fn canceled k e h1 h2 hpre hk hre
    have := execLoop_reject r fn canceled r.maxAttempts 1 none k e h1
      (by omega) (fun j hj1 hj2 => hpre j hj1 hj2) hk hre
    rw [Retry.Execute, this]
    simp only [Prod.mk.injEq]
    exact ⟨by trivial, by omega⟩
  · intro ε r fn canceled eN h1 hpre hk
    have hk2 : fn (1 + r.maxAttempts - 1) = some eN := by
      have : 1 + r.maxAttempts - 1 = r.maxAttempts := by omega
      rw [this]
      exact hk
    have := execLoop_exhaust r fn canceled r.maxAttempts 1 none eN h1
      (fun j hj1 hj2 => hpre j hj1 (by omega)) hk2
    rw [Retry.Execute, this]

/-- Witness for C4_execute_behavior: three attempts allowed, the first
fails retryably, the second succeeds, so Execute returns nil after
exactly two invocations. -/
theorem C4_execute_behavior_witness :
    Retry.Execute (ε := Nat) ⟨3, fun _ => true, 99⟩
      (fun j => if j = 2 then none else some 7) (fun _ => false)
      = (none, 2) := by
  apply C4_execute_behavior.2.1 Nat ⟨3, fun _ => true, 99⟩ _ _ 2
    (by norm_num) (by norm_num)
  · intro j hj1 hj2
    have hj : j = 1 := by omega
    subst hj
    exact ⟨⟨7, rfl, rfl⟩, rfl⟩
  · rfl

/-- C5: when the cancellation context fires during the suspension after
attempt k (with k below the attempt bound, every attempt so far failing
with a retryable error and no earlier cancellation), both Execute and
ExecuteReply return the cancellation context's own error - not the last
attempt's error and not a wrapped value - and the function is not
invoked again: exactly k invocations happen. -/
theorem C5_cancellation :
    (∀ (ε : Type) (r : Retry ε) (fn : Nat → Option ε) (canceled : Nat → Bool)
        (k : Nat), 1 ≤ k → k < r.maxAttempts →
        (∀ j, 1 ≤ j → j < k →
          (∃ e, fn j = some e ∧ r.retryIf e = true) ∧ canceled j = false) →
        (∃ e, fn k = some e ∧ r.retryIf e = true) → canceled k = true →
        Retry.Execute r fn canceled = (some r.ctxErr, k))
    ∧ (∀ (ε τ : Type) (r : Retry ε) (fn : Nat → τ ⊕ ε) (canceled : Nat → Bool)
        (k : Nat), 1 ≤ k → k < r.maxAttempts →
        (∀ j, 1 ≤ j → j < k →
          (∃ e, fn j = Sum.inr e ∧ r.retryIf e = true) ∧ canceled j = false) →
        (∃ e, fn k = Sum.inr e ∧ r.retryIf e = true) → canceled k = true →
        ExecuteReply r fn canceled = ((none, some r.ctxErr), k)) := by
  constructor
  · intro ε r fn canceled k h1 h2 hpre hke hck
    have := execLoop_cancel r fn canceled r.maxAttempts 1 none k h1
      (by omega) (fun j hj1 hj2 => hpre j hj1 hj2) hke hck
    rw [Retry.Execute, this]
    simp only [Prod.mk.injEq]
    exact ⟨by trivial, by omega⟩
  · intro ε τ r fn canceled k h1 h2 hpre hke hck
    have := execReplyLoop_cancel r fn canceled r.maxAttempts 1 none k h1
      (by omega) (fun j hj1 hj2 => hpre j hj1 hj2) hke hck
    rw [ExecuteReply, this]
    simp only [Prod.mk.injEq]
    exact ⟨by trivial, by omega⟩

/-- Witness for C5_cancellation: five attempts allowed, every attempt
fails retryably, the cancellation fires after attempt 2; Execute returns
the context error 42 after exactly two invocations. -/
theorem C5_cancellation_witness :
    Retry.Execute (ε := Nat) ⟨5, fun _ => true, 42⟩
      (fun _ => some 7) (fun j => j = 2)
      = (some 42, 2) := by
  apply C5_cancellation.1 Nat ⟨5, fun _ => true, 42⟩ _ _ 2
    (by norm_num) (by norm_num)
  · intro j hj1 hj2
    have hj : j = 1 := by omega
    subst hj
    exact ⟨⟨7, rfl, rfl⟩, by decide⟩
  · exact ⟨7, rfl, rfl⟩
  · decide

/-! Lemmas about the aggregate. -/

lemma addAll_sampling_off {ε : Type} (es : List (ε × Nat)) :
    ∀ (m : MultiError ε), m.sampling = false →
      (addAll m (es.map (fun p => (some p.1, p.2)))).errors
        = m.errors ++ ((es.map (fun p => p.1)).take
            (if m.limit = 0 then es.length else m.limit - m.errors.length)) := by
  induction es with
  | nil =>
    intro m _
    simp [addAll]
  | cons p t ih =>
    intro m hs
    show (addAll (MultiError.Add m (some p.1) p.2) (t.map _)).errors = _
    have hAdd : MultiError.Add m (some p.1) p.2
        = if m.limit > 0 ∧ m.errors.length ≥ m.limit then m
          else { m with errors := m.errors ++ [p.1] } := by
      unfold MultiError.Add
      rw [hs]
      simp
    by_cases hfull : m.limit > 0 ∧ m.errors.length ≥ m.limit
    · rw [hAdd, if_pos hfull]
      rw [ih m hs]
      have hL : ¬ m.limit = 0 := by omega
      rw [if_neg hL, if_neg hL]
      have h0 : m.limit - m.errors.length = 0 := by omega
      rw [h0]
      simp
    · rw [hAdd, if_neg hfull]
      rw [ih { m with errors := m.errors ++ [p.1] } hs]
      by_cases hL : m.limit = 0
      · rw [if_pos hL, if_pos hL]
        simp [List.append_assoc, List.take_of_length_le]
      · rw [if_neg hL, if_neg hL]
        have hlen : m.errors.length < m.limit := by omega
        have harith : m.limit - m.errors.length
            = (m.limit - (m.errors.length + 1)) + 1 := by omega
        rw [harith]
        simp only [List.length_append, List.length_cons, List.length_nil,
          List.map_cons, List.take_succ_cons, List.append_assoc,
          List.cons_append, List.nil_append]

/-- C8: starting from an aggregate with limit L and sampling off, adding
a sequence of non-nil errors (each with an arbitrary random draw, unused
since sampling is off) keeps the first L of them in insertion order when
L is positive and all of them when L is zero; Count is min(n, L),
respectively n; and adding nil never changes the aggregate. -/
theorem C8_aggregate_limit :
    (∀ (ε : Type) (L : Nat) (es : List (ε × Nat)),
        (addAll (NewMultiError ε L false 0)
            (es.map (fun p => (some p.1, p.2)))).errors
          = (if L = 0 then es.map (fun p => p.1)
             else (es.map (fun p => p.1)).take L))
    ∧ (∀ (ε : Type) (L : Nat) (es : List (ε × Nat)),
        MultiError.Count (addAll (NewMultiError ε L false 0)
            (es.map (fun p => (some p.1, p.2))))
          = if L = 0 then es.length else min es.length L)
    ∧ (∀ (ε : Type) (m : MultiError ε) (rand : Nat),
        MultiError.Add m none rand = m) := by
  have hmain : ∀ (ε : Type) (L : Nat) (es : List (ε × Nat)),
      (addAll (NewMultiError ε L false 0)
          (es.map (fun p => (some p.1, p.2)))).errors
        = (if L = 0 then es.map (fun p => p.1)
           else (es.map (fun p => p.1)).take L) := by
    intro ε L es
    rw [addAll_sampling_off es (NewMultiError ε L false 0) rfl]
    simp only [NewMultiError, List.nil_append, List.length_nil, Nat.sub_zero]
    by_cases hL : L = 0
    · rw [if_pos hL, if_pos hL]
      simp [List.take_of_length_le]
    · rw [if_neg hL, if_neg hL]
  refine ⟨hmain, ?_, ?_⟩
  · intro ε L es
    show (addAll _ _).errors.length = _
    rw [hmain ε L es]
    by_cases hL : L = 0
    · rw [if_pos hL, if_pos hL]
      simp
    · rw [if_neg hL, if_neg hL]
      rw [List.length_take, List.length_map]
      omega
  · intro ε m rand
    rfl

/-! Lemmas about Copy, With and Merge. -/

lemma With_scalar (e : Error) (k : String) (v : CtxVal) :
    (Error.With e k v).msg = e.msg ∧ (Error.With e k v).name = e.name
    ∧ (Error.With e k v).cause = e.cause
    ∧ (Error.With e k v).stack = e.stack := by
  unfold Error.With
  split <;> try split
  · exact ⟨rfl, rfl, rfl, rfl⟩
  · exact ⟨rfl, rfl, rfl, rfl⟩
  · split <;> exact ⟨rfl, rfl, rfl, rfl⟩

lemma foldl_With_scalar (entries : CtxMap) :
    ∀ (r : Error),
      (entries.foldl (fun r p => Error.With r p.1 p.2) r).msg = r.msg
      ∧ (entries.foldl (fun r p => Error.With r p.1 p.2) r).name = r.name
      ∧ (entries.foldl (fun r p => Error.With r p.1 p.2) r).cause = r.cause
      ∧ (entries.foldl (fun r p => Error.With r p.1 p.2) r).stack = r.stack := by
  induction entries with
  | nil => intro r; exact ⟨rfl, rfl, rfl, rfl⟩
  | cons p t ih =>
    intro r
    have h1 := With_scalar r p.1 p.2
    have h2 := ih (Error.With r p.1 p.2)
    exact ⟨h2.1.trans h1.1, h2.2.1.trans h1.2.1,
           h2.2.2.1.trans h1.2.2.1, h2.2.2.2.trans h1.2.2.2⟩

end ErrorsLib
